import Mathlib

/-!
Verification of the changelog assembly pipeline of `jx-changelog`
(`pkg/cmd/changelog/changelog.go`), as a shallow embedding in Lean.

Go strings are modelled as Lean `String`; the Go `<` on strings is
byte-lexicographic, which coincides with the codepoint-lexicographic
order used by the Mathlib `String` linear order (UTF-8 preserves it).
-/

namespace JxChangelog

/-! ### Dependency updates (`CollapseDependencyUpdates`, changelog.go:829-876)

`v1.DependencyUpdate` carries a `DependencyUpdateDetails` with the eleven
string fields below (host, owner, repo, component, url, the from-triple and
the to-triple).  The extra `Paths` field of the Go type is never read and is
always absent from records built by `CollapseDependencyUpdates`, so it is
omitted from the embedding. -/

structure DependencyUpdate where
  host : String
  owner : String
  repo : String
  component : String
  url : String
  fromVersion : String
  fromReleaseHTMLURL : String
  fromReleaseName : String
  toVersion : String
  toReleaseHTMLURL : String
  toReleaseName : String
deriving DecidableEq, Repr

/-- The Go `<` on strings: lexicographic on the byte sequences, which is the
lexicographic order on the character sequences (UTF-8 preserves it). -/
def strLt (a b : String) : Prop := a.data < b.data

instance : DecidableRel strLt := fun a b => by
  unfold strLt; exact inferInstance

/-- `strLt` coincides with the `<` of the `String` linear order. -/
theorem strLt_iff (a b : String) : strLt a b ↔ a < b := by
  rw [String.lt_iff_toList_lt]
  exact Iff.rfl

/-- The comparator passed to `sort.Slice` in `CollapseDependencyUpdates`
(changelog.go:832-846), translated if-for-if. -/
def duLess (a b : DependencyUpdate) : Prop :=
  if a.owner = b.owner then
    if a.repo = b.repo then
      if a.component = b.component then
        if a.fromVersion = b.fromVersion then
          strLt a.toVersion b.toVersion
        else
          strLt a.fromVersion b.fromVersion
      else
        strLt a.component b.component
    else
      strLt a.repo b.repo
  else
    strLt a.owner b.owner

instance : DecidableRel duLess := fun a b => by
  unfold duLess; exact inferInstance

/-- `sort.Slice` guarantees a permutation in which no adjacent pair is
inverted under the comparator; `duLE a b` is exactly "not `duLess b a`". -/
def duLE (a b : DependencyUpdate) : Prop := ¬ duLess b a

instance : DecidableRel duLE := fun a b => by
  unfold duLE; exact inferInstance

/-- The group boundary test of the collapsing loop (changelog.go:854):
`[i-1].Owner != [i].Owner || [i-1].Repo != [i].Repo || [i-1].Component != [i].Component`. -/
def duBoundary (a b : DependencyUpdate) : Prop :=
  a.owner ≠ b.owner ∨ a.repo ≠ b.repo ∨ a.component ≠ b.component

instance : DecidableRel duBoundary := fun a b => by
  unfold duBoundary; exact inferInstance

/-- Two records belong to the same collapsing group. -/
def sameGroup (a b : DependencyUpdate) : Prop :=
  a.owner = b.owner ∧ a.repo = b.repo ∧ a.component = b.component

instance : DecidableRel sameGroup := fun a b => by
  unfold sameGroup; exact inferInstance

/-- The record appended for the group `dependencyUpdates[start..end]`
(changelog.go:856-870): owner/repo/component/url/host and the `From*`
fields come from the first record of the group, the `To*` fields from the
last. -/
def mkCollapsed (first lastR : DependencyUpdate) : DependencyUpdate :=
  { owner := first.owner
    repo := first.repo
    component := first.component
    url := first.url
    host := first.host
    fromVersion := first.fromVersion
    fromReleaseHTMLURL := first.fromReleaseHTMLURL
    fromReleaseName := first.fromReleaseName
    toVersion := lastR.toVersion
    toReleaseName := lastR.toReleaseName
    toReleaseHTMLURL := lastR.toReleaseHTMLURL }

/-- The collapsing scan (changelog.go:851-874) on the sorted list, with
`first` the head of the current group and `prev` the element at `i-1`. -/
def collapseRunsAux (first prev : DependencyUpdate) :
    List DependencyUpdate → List DependencyUpdate
  | [] => [mkCollapsed first prev]
  | x :: xs =>
    if duBoundary prev x then
      mkCollapsed first prev :: collapseRunsAux x x xs
    else
      collapseRunsAux first x xs

/-- The collapsing scan over a whole (sorted) list; empty input is left
untouched by the `len(dependencyUpdates) > 0` guard. -/
def collapseSorted : List DependencyUpdate → List DependencyUpdate
  | [] => []
  | x :: xs => collapseRunsAux x x xs

/-- `CollapseDependencyUpdates` (changelog.go:829-876): sort by the
comparator, then collapse consecutive groups. -/
def CollapseDependencyUpdates (l : List DependencyUpdate) : List DependencyUpdate :=
  collapseSorted (List.insertionSort duLE l)

/-! #### Order-theoretic reflection of the comparator -/

/-- The (owner, repo, component) key, with the lexicographic order. -/
def key3 (a : DependencyUpdate) : String ×ₗ String ×ₗ String :=
  toLex (a.owner, toLex (a.repo, a.component))

/-- The full five-field sort key, with the lexicographic order. -/
def key5 (a : DependencyUpdate) : String ×ₗ String ×ₗ String ×ₗ String ×ₗ String :=
  toLex (a.owner, toLex (a.repo, toLex (a.component, toLex (a.fromVersion, a.toVersion))))

theorem duLess_iff (a b : DependencyUpdate) : duLess a b ↔ key5 a < key5 b := by
  unfold duLess key5
  simp only [Prod.Lex.lt_iff, strLt_iff]
  by_cases h1 : a.owner = b.owner
  · by_cases h2 : a.repo = b.repo
    · by_cases h3 : a.component = b.component
      · by_cases h4 : a.fromVersion = b.fromVersion
        · simp [h1, h2, h3, h4, lt_irrefl]
        · simp [h1, h2, h3, h4, lt_irrefl]
      · simp [h1, h2, h3, lt_irrefl]
    · simp [h1, h2, lt_irrefl]
  · simp [h1]

theorem duLE_iff (a b : DependencyUpdate) : duLE a b ↔ key5 a ≤ key5 b := by
  rw [duLE, duLess_iff, not_lt]

theorem sameGroup_iff_key3 (a b : DependencyUpdate) : sameGroup a b ↔ key3 a = key3 b := by
  unfold sameGroup key3
  constructor
  · rintro ⟨h1, h2, h3⟩
    simp [h1, h2, h3]
  · intro h
    simp only [toLex_inj, Prod.mk.injEq] at h
    exact ⟨h.1, h.2.1, h.2.2⟩

theorem not_duBoundary_iff (a b : DependencyUpdate) : ¬ duBoundary a b ↔ sameGroup a b := by
  unfold duBoundary sameGroup
  push_neg
  rfl

theorem sameGroup_refl (a : DependencyUpdate) : sameGroup a a := ⟨rfl, rfl, rfl⟩

theorem sameGroup_symm {a b : DependencyUpdate} (h : sameGroup a b) : sameGroup b a :=
  ⟨h.1.symm, h.2.1.symm, h.2.2.symm⟩

theorem sameGroup_trans {a b c : DependencyUpdate}
    (h : sameGroup a b) (h' : sameGroup b c) : sameGroup a c :=
  ⟨h.1.trans h'.1, h.2.1.trans h'.2.1, h.2.2.trans h'.2.2⟩

/-- Projecting the five-field order onto the three-field key. -/
theorem key3_le_of_key5_le {a b : DependencyUpdate} (h : key5 a ≤ key5 b) :
    key3 a ≤ key3 b := by
  unfold key5 at h
  unfold key3
  rw [Prod.Lex.le_iff] at h ⊢
  rcases h with h | ⟨h1, h⟩
  · exact Or.inl h
  · refine Or.inr ⟨h1, ?_⟩
    rw [Prod.Lex.le_iff] at h ⊢
    rcases h with h | ⟨h2, h⟩
    · exact Or.inl h
    · refine Or.inr ⟨h2, ?_⟩
      rw [Prod.Lex.le_iff] at h
      rcases h with h | ⟨h3, _⟩
      · exact le_of_lt h
      · exact le_of_eq h3

theorem key3_lt_of_key5_le_of_ne {a b : DependencyUpdate}
    (h : key5 a ≤ key5 b) (hne : key3 a ≠ key3 b) : key3 a < key3 b :=
  lt_of_le_of_ne (key3_le_of_key5_le h) hne

/-- Within one group the five-field order reduces to the lexicographic
order on the (fromVersion, toVersion) pair. -/
theorem key5_le_iff_of_sameGroup {a b : DependencyUpdate} (h : sameGroup a b) :
    (key5 a ≤ key5 b ↔
      (a.fromVersion < b.fromVersion ∨
        (a.fromVersion = b.fromVersion ∧ a.toVersion ≤ b.toVersion))) := by
  obtain ⟨h1, h2, h3⟩ := h
  unfold key5
  rw [Prod.Lex.le_iff]
  simp only [h1, h2, h3, lt_irrefl, false_or, true_and]
  rw [Prod.Lex.le_iff]
  simp only [lt_irrefl, false_or, true_and]
  rw [Prod.Lex.le_iff]
  simp only [lt_irrefl, false_or, true_and]
  rw [Prod.Lex.le_iff]

theorem fromVersion_le_of_key5_le_of_sameGroup {a b : DependencyUpdate}
    (hg : sameGroup a b) (h : key5 a ≤ key5 b) : a.fromVersion ≤ b.fromVersion := by
  rcases (key5_le_iff_of_sameGroup hg).mp h with h' | ⟨h', _⟩
  · exact le_of_lt h'
  · exact le_of_eq h'

instance : IsTotal DependencyUpdate duLE :=
  ⟨fun a b => by
    rw [duLE_iff, duLE_iff]
    exact le_total (key5 a) (key5 b)⟩

instance : IsTrans DependencyUpdate duLE :=
  ⟨fun a b c hab hbc => by
    rw [duLE_iff] at *
    exact le_trans hab hbc⟩

/-- If two records are in comparator order but in different groups, the
three-field keys are strictly ordered. -/
theorem key3_lt_of_duLE_of_boundary {a b : DependencyUpdate}
    (h : duLE a b) (hb : duBoundary a b) : key3 a < key3 b := by
  rw [duLE_iff] at h
  refine key3_lt_of_key5_le_of_ne h ?_
  intro hk
  exact (not_duBoundary_iff a b).mpr ((sameGroup_iff_key3 a b).mpr hk) hb

@[simp] theorem mkCollapsed_fromVersion (a b : DependencyUpdate) :
    (mkCollapsed a b).fromVersion = a.fromVersion := rfl

@[simp] theorem mkCollapsed_toVersion (a b : DependencyUpdate) :
    (mkCollapsed a b).toVersion = b.toVersion := rfl

theorem key3_mkCollapsed (a b : DependencyUpdate) : key3 (mkCollapsed a b) = key3 a := rfl

theorem sameGroup_mk_right (x a b : DependencyUpdate) :
    sameGroup x (mkCollapsed a b) ↔ sameGroup x a := by
  rw [sameGroup_iff_key3, sameGroup_iff_key3, key3_mkCollapsed]

theorem mkCollapsed_self (a : DependencyUpdate) : mkCollapsed a a = a := rfl

/-- The strict order on the (owner, repo, component) keys. -/
def key3lt (a b : DependencyUpdate) : Prop := key3 a < key3 b

instance : IsTrans DependencyUpdate key3lt := ⟨fun _ _ _ => lt_trans⟩

theorem key5_lt_of_key3_lt {a b : DependencyUpdate} (h : key3 a < key3 b) :
    key5 a < key5 b := by
  unfold key3 at h
  unfold key5
  rw [Prod.Lex.lt_iff] at h ⊢
  rcases h with h | ⟨h1, h⟩
  · exact Or.inl h
  · refine Or.inr ⟨h1, ?_⟩
    rw [Prod.Lex.lt_iff] at h ⊢
    rcases h with h | ⟨h2, h⟩
    · exact Or.inl h
    · exact Or.inr ⟨h2, (Prod.Lex.lt_iff ..).mpr (Or.inl h)⟩

theorem duLE_of_key3lt {a b : DependencyUpdate} (h : key3lt a b) : duLE a b := by
  rw [duLE_iff]
  exact le_of_lt (key5_lt_of_key3_lt h)

theorem duBoundary_of_key3lt {a b : DependencyUpdate} (h : key3lt a b) : duBoundary a b := by
  by_contra hc
  have := (sameGroup_iff_key3 a b).mp ((not_duBoundary_iff a b).mp hc)
  exact absurd h (by rw [key3lt, this]; exact lt_irrefl _)

/-- The collapsing scan always emits a first record built from the group head `f`. -/
theorem collapseRunsAux_head_shape (l : List DependencyUpdate) :
    ∀ f p : DependencyUpdate, ∃ q t, collapseRunsAux f p l = mkCollapsed f q :: t := by
  induction l with
  | nil => intro f p; exact ⟨p, [], rfl⟩
  | cons x xs ih =>
    intro f p
    rw [collapseRunsAux]
    by_cases hb : duBoundary p x
    · rw [if_pos hb]; exact ⟨p, collapseRunsAux x x xs, rfl⟩
    · rw [if_neg hb]; exact ih f x

/-- On a sorted run, the emitted records have strictly increasing keys, and
all of them lie at or above the key of the group head. -/
theorem collapseRunsAux_chain (l : List DependencyUpdate) :
    ∀ f p : DependencyUpdate,
      List.Sorted duLE (p :: l) → sameGroup f p →
      List.Chain' key3lt (collapseRunsAux f p l) ∧
      ∀ r ∈ collapseRunsAux f p l, key3 f ≤ key3 r := by
  induction l with
  | nil =>
    intro f p _ _
    refine ⟨List.chain'_singleton _, ?_⟩
    intro r hr
    rw [collapseRunsAux, List.mem_singleton] at hr
    subst hr
    exact le_of_eq (key3_mkCollapsed f p).symm
  | cons x xs ih =>
    intro f p hsort hfp
    have hpx : duLE p x := (List.sorted_cons.mp hsort).1 x (List.mem_cons_self x xs)
    have hsort' : List.Sorted duLE (x :: xs) := (List.sorted_cons.mp hsort).2
    rw [collapseRunsAux]
    by_cases hb : duBoundary p x
    · rw [if_pos hb]
      obtain ⟨chainT, memT⟩ := ih x x hsort' (sameGroup_refl x)
      have hlt : key3 f < key3 x := by
        rw [(sameGroup_iff_key3 f p).mp hfp]
        exact key3_lt_of_duLE_of_boundary hpx hb
      constructor
      · rw [List.chain'_cons']
        refine ⟨?_, chainT⟩
        intro h hh
        obtain ⟨q, t, hq⟩ := collapseRunsAux_head_shape xs x x
        rw [hq] at hh
        simp only [List.head?_cons, Option.mem_def, Option.some.injEq] at hh
        subst hh
        show key3 (mkCollapsed f p) < key3 (mkCollapsed x q)
        rw [key3_mkCollapsed, key3_mkCollapsed]
        exact hlt
      · intro r hr
        rcases List.mem_cons.mp hr with hr | hr
        · subst hr; exact le_of_eq (key3_mkCollapsed f p).symm
        · exact le_trans (le_of_lt hlt) (memT r hr)
    · rw [if_neg hb]
      exact ih f x hsort' (sameGroup_trans hfp ((not_duBoundary_iff p x).mp hb))

/-- Every emitted record is `mkCollapsed a b` for two same-group members of
the processed run. -/
theorem collapseRunsAux_sources (l : List DependencyUpdate) :
    ∀ f p : DependencyUpdate, sameGroup f p →
      ∀ r ∈ collapseRunsAux f p l, ∃ a b : DependencyUpdate,
        (a = f ∨ a ∈ p :: l) ∧ (b = f ∨ b ∈ p :: l) ∧ sameGroup a b ∧ r = mkCollapsed a b := by
  induction l with
  | nil =>
    intro f p hfp r hr
    rw [collapseRunsAux, List.mem_singleton] at hr
    exact ⟨f, p, Or.inl rfl, Or.inr (List.mem_cons_self p _), hfp, hr⟩
  | cons x xs ih =>
    intro f p hfp r hr
    rw [collapseRunsAux] at hr
    by_cases hb : duBoundary p x
    · rw [if_pos hb] at hr
      rcases List.mem_cons.mp hr with hr | hr
      · exact ⟨f, p, Or.inl rfl, Or.inr (List.mem_cons_self p _), hfp, hr⟩
      · obtain ⟨a, b, ha, hbm, hab, heq⟩ := ih x x (sameGroup_refl x) r hr
        refine ⟨a, b, ?_, ?_, hab, heq⟩
        · rcases ha with h | h
          · subst h; exact Or.inr (List.mem_cons_of_mem p (List.mem_cons_self _ _))
          · exact Or.inr (List.mem_cons_of_mem p h)
        · rcases hbm with h | h
          · subst h; exact Or.inr (List.mem_cons_of_mem p (List.mem_cons_self _ _))
          · exact Or.inr (List.mem_cons_of_mem p h)
    · rw [if_neg hb] at hr
      obtain ⟨a, b, ha, hbm, hab, heq⟩ :=
        ih f x (sameGroup_trans hfp ((not_duBoundary_iff p x).mp hb)) r hr
      refine ⟨a, b, ?_, ?_, hab, heq⟩
      · rcases ha with h | h
        · exact Or.inl h
        · exact Or.inr (List.mem_cons_of_mem p h)
      · rcases hbm with h | h
        · exact Or.inl h
        · exact Or.inr (List.mem_cons_of_mem p h)

/-- Every member of the processed run has an emitted record in its group. -/
theorem collapseRunsAux_covers (l : List DependencyUpdate) :
    ∀ f p : DependencyUpdate, sameGroup f p →
      ∀ x, (x = f ∨ x ∈ p :: l) → ∃ r ∈ collapseRunsAux f p l, sameGroup x r := by
  induction l with
  | nil =>
    intro f p hfp x hx
    refine ⟨mkCollapsed f p, List.mem_cons_self _ _, ?_⟩
    rw [sameGroup_mk_right]
    rcases hx with h | h
    · rw [h]; exact sameGroup_refl f
    · rw [List.mem_singleton] at h; rw [h]; exact sameGroup_symm hfp
  | cons y ys ih =>
    intro f p hfp x hx
    rw [collapseRunsAux]
    by_cases hb : duBoundary p y
    · rw [if_pos hb]
      rcases hx with h | h
      · rw [h]
        exact ⟨mkCollapsed f p, List.mem_cons_self _ _,
          (sameGroup_mk_right ..).mpr (sameGroup_refl f)⟩
      · rcases List.mem_cons.mp h with h | h
        · rw [h]
          exact ⟨mkCollapsed f p, List.mem_cons_self _ _,
            (sameGroup_mk_right ..).mpr (sameGroup_symm hfp)⟩
        · obtain ⟨r, hrmem, hrg⟩ := ih y y (sameGroup_refl y) x (Or.inr h)
          exact ⟨r, List.mem_cons_of_mem _ hrmem, hrg⟩
    · rw [if_neg hb]
      have hfy : sameGroup f y := sameGroup_trans hfp ((not_duBoundary_iff p y).mp hb)
      rcases hx with h | h
      · exact ih f y hfy x (Or.inl h)
      · rcases List.mem_cons.mp h with h | h
        · subst h
          obtain ⟨r, hrmem, hrg⟩ := ih f y hfy f (Or.inl rfl)
          exact ⟨r, hrmem, sameGroup_trans (sameGroup_symm hfp) hrg⟩
        · exact ih f y hfy x (Or.inr h)

/-- On a sorted run, each emitted record carries the minimal from-version of
its group, and its to-version is the to-version of the group member that is
greatest in the five-field sort order. -/
theorem collapseRunsAux_minmax (l : List DependencyUpdate) :
    ∀ f p : DependencyUpdate,
      List.Sorted duLE (p :: l) → sameGroup f p → key5 f ≤ key5 p →
      ∀ r ∈ collapseRunsAux f p l,
        (∀ x, (x = f ∨ x ∈ p :: l) → sameGroup x r → r.fromVersion ≤ x.fromVersion) ∧
        (∃ b, (b = f ∨ b ∈ p :: l) ∧ sameGroup b r ∧ r.toVersion = b.toVersion ∧
          ∀ x, (x = f ∨ x ∈ p :: l) → sameGroup x r → key5 x ≤ key5 b) := by
  induction l with
  | nil =>
    intro f p _ hfp hf5 r hr
    rw [collapseRunsAux, List.mem_singleton] at hr
    subst hr
    constructor
    · intro x hx _
      rw [mkCollapsed_fromVersion]
      rcases hx with h | h
      · subst h; exact le_refl _
      · rw [List.mem_singleton] at h; subst h
        exact fromVersion_le_of_key5_le_of_sameGroup hfp hf5
    · refine ⟨p, Or.inr (List.mem_cons_self p _),
        (sameGroup_mk_right ..).mpr (sameGroup_symm hfp), rfl, ?_⟩
      intro x hx _
      rcases hx with h | h
      · subst h; exact hf5
      · rw [List.mem_singleton] at h; subst h; exact le_refl _
  | cons y ys ih =>
    intro f p hsort hfp hf5 r hr
    have hpy : duLE p y := (List.sorted_cons.mp hsort).1 y (List.mem_cons_self y ys)
    have hsort' : List.Sorted duLE (y :: ys) := (List.sorted_cons.mp hsort).2
    have hp5y : key5 p ≤ key5 y := (duLE_iff p y).mp hpy
    rw [collapseRunsAux] at hr
    by_cases hb : duBoundary p y
    · rw [if_pos hb] at hr
      have hkfy : key3 f < key3 y := by
        rw [(sameGroup_iff_key3 f p).mp hfp]
        exact key3_lt_of_duLE_of_boundary hpy hb
      rcases List.mem_cons.mp hr with hr | hr
      · subst hr
        have hnoty : ∀ x, x ∈ y :: ys → ¬ sameGroup x (mkCollapsed f p) := by
          intro x hx hxg
          have hk : key3 x = key3 f := (sameGroup_iff_key3 ..).mp ((sameGroup_mk_right ..).mp hxg)
          have hyx : key5 y ≤ key5 x := by
            rcases List.mem_cons.mp hx with h | h
            · subst h; exact le_refl _
            · exact (duLE_iff y x).mp ((List.sorted_cons.mp hsort').1 x h)
          have h3 : key3 y ≤ key3 x := key3_le_of_key5_le hyx
          rw [hk] at h3
          exact absurd (lt_of_lt_of_le hkfy h3) (lt_irrefl _)
        constructor
        · intro x hx hxg
          rw [mkCollapsed_fromVersion]
          rcases hx with h | h
          · subst h; exact le_refl _
          · rcases List.mem_cons.mp h with h | h
            · subst h; exact fromVersion_le_of_key5_le_of_sameGroup hfp hf5
            · exact absurd hxg (hnoty x h)
        · refine ⟨p, Or.inr (List.mem_cons_self p _),
            (sameGroup_mk_right ..).mpr (sameGroup_symm hfp), rfl, ?_⟩
          intro x hx hxg
          rcases hx with h | h
          · subst h; exact hf5
          · rcases List.mem_cons.mp h with h | h
            · subst h; exact le_refl _
            · exact absurd hxg (hnoty x h)
      · obtain ⟨minIH, maxIH⟩ := ih y y hsort' (sameGroup_refl y) (le_refl _) r hr
        have hyler : key3 y ≤ key3 r :=
          (collapseRunsAux_chain ys y y hsort' (sameGroup_refl y)).2 r hr
        have hnotf : ¬ sameGroup f r := by
          intro hg
          exact absurd ((sameGroup_iff_key3 ..).mp hg) (ne_of_lt (lt_of_lt_of_le hkfy hyler))
        have hnotp : ¬ sameGroup p r := fun hg => hnotf (sameGroup_trans hfp hg)
        constructor
        · intro x hx hxg
          rcases hx with h | h
          · subst h; exact absurd hxg hnotf
          · rcases List.mem_cons.mp h with h | h
            · subst h; exact absurd hxg hnotp
            · exact minIH x (Or.inr h) hxg
        · obtain ⟨b, hbmem, hbg, hbto, hbmax⟩ := maxIH
          refine ⟨b, ?_, hbg, hbto, ?_⟩
          · rcases hbmem with h | h
            · exact Or.inr (List.mem_cons_of_mem p (h ▸ List.mem_cons_self y ys))
            · exact Or.inr (List.mem_cons_of_mem p h)
          · intro x hx hxg
            rcases hx with h | h
            · subst h; exact absurd hxg hnotf
            · rcases List.mem_cons.mp h with h | h
              · subst h; exact absurd hxg hnotp
              · exact hbmax x (Or.inr h) hxg
    · rw [if_neg hb] at hr
      have hpyg : sameGroup p y := (not_duBoundary_iff p y).mp hb
      have hfyg : sameGroup f y := sameGroup_trans hfp hpyg
      obtain ⟨minIH, maxIH⟩ := ih f y hsort' hfyg (le_trans hf5 hp5y) r hr
      constructor
      · intro x hx hxg
        rcases hx with h | h
        · exact minIH x (Or.inl h) hxg
        · rcases List.mem_cons.mp h with h | h
          · subst h
            have h1 : r.fromVersion ≤ f.fromVersion :=
              minIH f (Or.inl rfl) (sameGroup_trans hfp hxg)
            exact le_trans h1 (fromVersion_le_of_key5_le_of_sameGroup hfp hf5)
          · exact minIH x (Or.inr h) hxg
      · obtain ⟨b, hbmem, hbg, hbto, hbmax⟩ := maxIH
        refine ⟨b, ?_, hbg, hbto, ?_⟩
        · rcases hbmem with h | h
          · exact Or.inl h
          · exact Or.inr (List.mem_cons_of_mem p h)
        · intro x hx hxg
          rcases hx with h | h
          · exact hbmax x (Or.inl h) hxg
          · rcases List.mem_cons.mp h with h | h
            · subst h
              have hyr : sameGroup y r := sameGroup_trans (sameGroup_symm hpyg) hxg
              exact le_trans hp5y (hbmax y (Or.inr (List.mem_cons_self y ys)) hyr)
            · exact hbmax x (Or.inr h) hxg

theorem collapseSorted_chain {s : List DependencyUpdate} (hs : List.Sorted duLE s) :
    List.Chain' key3lt (collapseSorted s) := by
  cases s with
  | nil => exact List.chain'_nil
  | cons y ys => exact (collapseRunsAux_chain ys y y hs (sameGroup_refl y)).1

/-- On a list in which each adjacent pair crosses a group boundary, the
collapsing scan is the identity. -/
theorem collapseRunsAux_distinct (l : List DependencyUpdate) :
    ∀ p : DependencyUpdate, List.Chain' duBoundary (p :: l) →
      collapseRunsAux p p l = p :: l := by
  induction l with
  | nil => intro p _; rw [collapseRunsAux, mkCollapsed_self]
  | cons x xs ih =>
    intro p hc
    rw [List.chain'_cons] at hc
    rw [collapseRunsAux, if_pos hc.1, mkCollapsed_self, ih x hc.2]

theorem collapseSorted_eq_self {s : List DependencyUpdate}
    (h : List.Chain' duBoundary s) : collapseSorted s = s := by
  cases s with
  | nil => rfl
  | cons y ys => exact collapseRunsAux_distinct ys y h

/-! ### Claim theorems about `CollapseDependencyUpdates` -/

/-- C5: for every input list of `DependencyUpdate` records, collapsing is
idempotent: applying `CollapseDependencyUpdates` to an already-collapsed list
yields the same list. -/
theorem c5_collapse_idempotent (l : List DependencyUpdate) :
    CollapseDependencyUpdates (CollapseDependencyUpdates l) = CollapseDependencyUpdates l := by
  have hchain : List.Chain' key3lt (CollapseDependencyUpdates l) :=
    collapseSorted_chain (List.sorted_insertionSort duLE l)
  have hsorted : List.Sorted duLE (CollapseDependencyUpdates l) :=
    (List.chain'_iff_pairwise.mp hchain).imp duLE_of_key3lt
  have hbound : List.Chain' duBoundary (CollapseDependencyUpdates l) :=
    List.Chain'.imp (fun _ _ h => duBoundary_of_key3lt h) hchain
  show collapseSorted (List.insertionSort duLE (CollapseDependencyUpdates l)) = _
  rw [List.Sorted.insertionSort_eq hsorted]
  exact collapseSorted_eq_self hbound

/-- C6: the collapsed output never contains two records with identical
(owner, repo, component), and every output record is assembled from two
input records of one and the same (owner, repo, component) group — collapsing
never merges records that differ in owner, repo, or component. -/
theorem c6_collapse_groups_disjoint (l : List DependencyUpdate) :
    (CollapseDependencyUpdates l).Pairwise (fun r s => ¬ sameGroup r s) ∧
    ∀ r ∈ CollapseDependencyUpdates l, ∃ a ∈ l, ∃ b ∈ l,
      sameGroup a b ∧ sameGroup a r ∧ r = mkCollapsed a b := by
  constructor
  · have hchain : List.Chain' key3lt (CollapseDependencyUpdates l) :=
      collapseSorted_chain (List.sorted_insertionSort duLE l)
    exact (List.chain'_iff_pairwise.mp hchain).imp
      (fun h hg => absurd ((sameGroup_iff_key3 ..).mp hg) (ne_of_lt h))
  · cases hs : List.insertionSort duLE l with
    | nil =>
      intro r hr
      unfold CollapseDependencyUpdates at hr
      rw [hs] at hr
      exact absurd hr (List.not_mem_nil r)
    | cons y ys =>
      intro r hr
      unfold CollapseDependencyUpdates at hr
      rw [hs] at hr
      obtain ⟨a, b, ha, hb, hab, heq⟩ :=
        collapseRunsAux_sources ys y y (sameGroup_refl y) r hr
      have collapseOr : ∀ z : DependencyUpdate, (z = y ∨ z ∈ y :: ys) → z ∈ y :: ys := by
        intro z hz
        rcases hz with h | h
        · rw [h]; exact List.mem_cons_self y ys
        · exact h
      have hmem : ∀ z : DependencyUpdate, z ∈ y :: ys → z ∈ l := fun z hz =>
        (hs ▸ List.perm_insertionSort duLE l).mem_iff.mp hz
      refine ⟨a, hmem a (collapseOr a ha), b, hmem b (collapseOr b hb), hab, ?_, heq⟩
      rw [heq]
      exact (sameGroup_mk_right ..).mpr (sameGroup_refl a)

/-- C2 (amended): every (owner, repo, component) group of the input has a
collapsed record; each collapsed record has as from-version the *minimum*
from-version of its group (string order), and its to-version is the
to-version of the group member that is greatest in the sort order on the
(from-version, to-version) pair — which need not be the maximum to-version. -/
theorem c2_collapse_from_min_to_last (l : List DependencyUpdate) :
    (∀ x ∈ l, ∃ s ∈ CollapseDependencyUpdates l, sameGroup x s) ∧
    ∀ r ∈ CollapseDependencyUpdates l,
      (∃ a ∈ l, sameGroup a r ∧ r.fromVersion = a.fromVersion) ∧
      (∀ x ∈ l, sameGroup x r → r.fromVersion ≤ x.fromVersion) ∧
      (∃ b ∈ l, sameGroup b r ∧ r.toVersion = b.toVersion ∧
        ∀ x ∈ l, sameGroup x r →
          x.fromVersion < b.fromVersion ∨
            (x.fromVersion = b.fromVersion ∧ x.toVersion ≤ b.toVersion)) := by
  cases hs : List.insertionSort duLE l with
  | nil =>
    constructor
    · intro x hx
      exact absurd ((hs ▸ List.perm_insertionSort duLE l).mem_iff.mpr hx)
        (List.not_mem_nil x)
    · intro r hr
      unfold CollapseDependencyUpdates at hr
      rw [hs] at hr
      exact absurd hr (List.not_mem_nil r)
  | cons y ys =>
    have hsort : List.Sorted duLE (y :: ys) := hs ▸ List.sorted_insertionSort duLE l
    have hmem : ∀ z : DependencyUpdate, z ∈ y :: ys → z ∈ l := fun z hz =>
      (hs ▸ List.perm_insertionSort duLE l).mem_iff.mp hz
    have hmem' : ∀ z : DependencyUpdate, z ∈ l → z ∈ y :: ys := fun z hz =>
      (hs ▸ List.perm_insertionSort duLE l).mem_iff.mpr hz
    have collapseOr : ∀ z : DependencyUpdate, (z = y ∨ z ∈ y :: ys) → z ∈ y :: ys := by
      intro z hz
      rcases hz with h | h
      · rw [h]; exact List.mem_cons_self y ys
      · exact h
    have hout : CollapseDependencyUpdates l = collapseRunsAux y y ys := by
      unfold CollapseDependencyUpdates
      rw [hs]
      rfl
    constructor
    · intro x hx
      obtain ⟨r, hrmem, hrg⟩ :=
        collapseRunsAux_covers ys y y (sameGroup_refl y) x (Or.inr (hmem' x hx))
      exact ⟨r, hout ▸ hrmem, hrg⟩
    · intro r hr
      rw [hout] at hr
      refine ⟨?_, ?_, ?_⟩
      · obtain ⟨a, b, ha, _, _, heq⟩ :=
          collapseRunsAux_sources ys y y (sameGroup_refl y) r hr
        refine ⟨a, hmem a (collapseOr a ha), ?_, ?_⟩
        · rw [heq]
          exact sameGroup_symm ((sameGroup_mk_right ..).mpr (sameGroup_refl a))
        · rw [heq, mkCollapsed_fromVersion]
      · intro x hx hxg
        exact (collapseRunsAux_minmax ys y y hsort (sameGroup_refl y) (le_refl _) r hr).1
          x (Or.inr (hmem' x hx)) hxg
      · obtain ⟨b, hbmem, hbg, hbto, hbmax⟩ :=
          (collapseRunsAux_minmax ys y y hsort (sameGroup_refl y) (le_refl _) r hr).2
        refine ⟨b, hmem b (collapseOr b hbmem), hbg, hbto, ?_⟩
        intro x hx hxg
        have hxb : sameGroup x b := sameGroup_trans hxg (sameGroup_symm hbg)
        exact (key5_le_iff_of_sameGroup hxb).mp
          (hbmax x (Or.inr (hmem' x hx)) hxg)

/-- First record of the C2 counterexample group: versions 1.0 → 9.0. -/
def duExA : DependencyUpdate :=
  { host := "", owner := "acme", repo := "widget", component := "core", url := ""
    fromVersion := "1.0", fromReleaseHTMLURL := "", fromReleaseName := ""
    toVersion := "9.0", toReleaseHTMLURL := "", toReleaseName := "" }

/-- Second record of the C2 counterexample group: versions 2.0 → 3.0. -/
def duExB : DependencyUpdate :=
  { host := "", owner := "acme", repo := "widget", component := "core", url := ""
    fromVersion := "2.0", fromReleaseHTMLURL := "", fromReleaseName := ""
    toVersion := "3.0", toReleaseHTMLURL := "", toReleaseName := "" }

/-- C2 is false as stated: for the group
`{acme/widget:core 1.0→9.0, acme/widget:core 2.0→3.0}` the collapsed record
is `1.0→3.0`; its to-version "3.0" is *not* the maximum to-version "9.0" of
the group under string ordering. -/
theorem c2_counterexample :
    CollapseDependencyUpdates [duExA, duExB] = [mkCollapsed duExA duExB] ∧
    (mkCollapsed duExA duExB).toVersion = "3.0" ∧
    sameGroup duExA duExB ∧
    duExA.toVersion = "9.0" ∧ strLt "3.0" "9.0" := by
  refine ⟨by decide, rfl, by decide, rfl, by decide⟩

/-- Witness for `c2_collapse_from_min_to_last`: at the concrete two-record
group, the collapsed record has a from-version at most that of `duExB`. -/
theorem c2_collapse_from_min_to_last_witness :
    (mkCollapsed duExA duExB).fromVersion ≤ duExB.fromVersion :=
  ((c2_collapse_from_min_to_last [duExA, duExB]).2 (mkCollapsed duExA duExB)
    (by decide)).2.1 duExB (by decide) (by decide)

/-- Witness for `c6_collapse_groups_disjoint` at the concrete two-record input. -/
theorem c6_collapse_groups_disjoint_witness :
    ∃ a ∈ [duExA, duExB], ∃ b ∈ [duExA, duExB],
      sameGroup a b ∧ sameGroup a (mkCollapsed duExA duExB) ∧
      mkCollapsed duExA duExB = mkCollapsed a b :=
  (c6_collapse_groups_disjoint [duExA, duExB]).2 (mkCollapsed duExA duExB) (by decide)

/-! ### The commit and issue assembly pipeline (changelog.go:330-389, 645-800)

External collaborators (git user resolver, issue tracker, the Go regexp
engine) are modelled as oracle functions in an `Env`; the pipeline around
them is translated from the source.  Go string prefix/suffix tests are
modelled on the character sequences, which agrees with the byte-level
operations of the Go standard library on valid UTF-8. -/

/-- Go `strings.HasPrefix`. -/
def strStarts (s pat : String) : Bool := pat.data.isPrefixOf s.data

/-- Go `strings.HasSuffix`. -/
def strEnds (s pat : String) : Bool := pat.data.isSuffixOf s.data

/-- Go `strings.TrimPrefix(result, "#")` (changelog.go:703): remove one
leading `#` when present. -/
def stripHashChar (s : String) : String :=
  if strStarts s "#" then String.mk (s.data.drop 1) else s

/-- A git signature (`object.Signature`): name and email. -/
structure Signature where
  name : String
  email : String
deriving DecidableEq, Repr

/-- A raw commit (`object.Commit`): hash, message, author and committer
signatures, and the number of parent hashes (`len(ParentHashes)`). -/
structure RawCommit where
  hash : String
  message : String
  author : Signature
  committer : Signature
  parentCount : Nat
deriving DecidableEq, Repr

/-- A resolved canonical user (`v1.UserDetails`); produced only by the
resolver oracles, never inspected by the pipeline. -/
structure UserDetails where
  name : String
  email : String
  avatarURL : String
deriving DecidableEq, Repr

/-- A raw tracker user handle (`scm.User`-alike); consumed only by the
resolver oracles. -/
structure GitUserRaw where
  login : String
  name : String
  email : String
deriving DecidableEq, Repr

/-- The issue returned by the tracker (`*scm.Issue` via the issue provider):
the fields read by `addIssuesAndPullRequests` (changelog.go:716-765). -/
structure TrackerIssue where
  link : String
  title : String
  body : String
  state : String
  author : GitUserRaw
  closedBy : Option GitUserRaw
  assignees : Option (List GitUserRaw)
  labels : List String
  createdAt : Nat
  isPullRequest : Bool
deriving DecidableEq, Repr

/-- `v1.IssueLabel`. -/
structure IssueLabel where
  name : String
deriving DecidableEq, Repr

/-- `toV1Labels` (changelog.go:773-781). -/
def toV1Labels (labels : List String) : List IssueLabel :=
  labels.map fun label => { name := label }

/-- `v1.IssueSummary` as assembled at changelog.go:746-756.  The source sets
`State` only when `issue.State` is non-empty, which equals setting it
unconditionally because the zero value is the empty string. -/
structure IssueSummary where
  id : String
  url : String
  title : String
  body : String
  user : Option UserDetails
  creationTimestamp : Nat
  closedBy : Option UserDetails
  assignees : List UserDetails
  labels : List IssueLabel
  state : String
deriving DecidableEq, Repr

/-- `v1.CommitSummary` as assembled at changelog.go:665-672. -/
structure CommitSummary where
  message : String
  url : String
  sha : String
  author : Option UserDetails
  branch : String
  committer : Option UserDetails
  issueIDs : List String
deriving DecidableEq, Repr

/-- The run-scoped mutable state: the `FoundIssueNames` de-duplication set,
the lists accumulated on the `v1.ReleaseSpec` (`Commits`, `Issues`,
`PullRequests`), and a ghost log of the arguments of every `GetIssue`
call.  The logging-only `LoggedIssueKind` flag is omitted. -/
structure RunState where
  foundIssueNames : List String
  commits : List CommitSummary
  issues : List IssueSummary
  pullRequests : List IssueSummary
  issueCalls : List String
deriving DecidableEq, Repr

/-- Outcome of `tracker.GetIssue` (changelog.go:706-714): a non-nil error, a
nil issue with nil error, or an issue. -/
inductive IssueLookup where
  | failure (msg : String)
  | missing
  | found (issue : TrackerIssue)
deriving DecidableEq, Repr

/-- The external collaborators of one run.  `findMatches` stands for
`regex.FindAllStringSubmatch(message, -1)` (changelog.go:696): the list of
matches, each a list of submatch strings.  The resolvers stand for
`GitSignatureAsUser`, `Resolve` and `GitUserSliceAsUserDetailsSlice` of
`users.GitUserResolver`; a resolution error is logged by the source and
leaves the corresponding field empty, so an erroring resolver is modelled
as one returning `none` (respectively `[]`). -/
structure Env where
  getIssue : String → IssueLookup
  findMatches : String → List (List String)
  resolveSignature : Signature → Option UserDetails
  resolveUser : GitUserRaw → Option UserDetails
  resolveUsers : List GitUserRaw → List UserDetails

/-- The `IssueSummary` built for a found issue (changelog.go:716-760). -/
def foundIssueSummary (env : Env) (result : String) (issue : TrackerIssue) : IssueSummary :=
  { id := result
    url := issue.link
    title := issue.title
    body := issue.body
    user := env.resolveUser issue.author
    creationTimestamp := issue.createdAt
    closedBy :=
      match issue.closedBy with
      | none => none
      | some cb => env.resolveUser cb
    assignees :=
      match issue.assignees with
      | none => []
      | some xs => env.resolveUsers xs
    labels := toV1Labels issue.labels
    state := issue.state }

/-- Routing of the summary to `spec.PullRequests` or `spec.Issues`
(changelog.go:761-765). -/
def recordIssue (st : RunState) (s : IssueSummary) (isPR : Bool) : RunState :=
  if isPR then { st with pullRequests := st.pullRequests ++ [s] }
  else { st with issues := st.issues ++ [s] }

/-- The body of the inner loop of `addIssuesAndPullRequests`
(changelog.go:702-766) for one submatch string: trim a leading `#`, skip
identifiers already in `FoundIssueNames`, otherwise mark the identifier as
found, call the tracker (logged in `issueCalls`), and on success attach the
identifier to the commit and record the issue summary.  Lookup failures and
missing issues are logged and skipped (`continue`). -/
def processIssueReference (env : Env) (st : RunState) (cs : CommitSummary)
    (rawResult : String) : RunState × CommitSummary :=
  let result := stripHashChar rawResult
  if st.foundIssueNames.contains result then (st, cs)
  else
    let st1 : RunState := { st with
      foundIssueNames := result :: st.foundIssueNames
      issueCalls := st.issueCalls ++ [result] }
    match env.getIssue result with
    | .failure _ => (st1, cs)
    | .missing => (st1, cs)
    | .found issue =>
      (recordIssue st1 (foundIssueSummary env result issue) issue.isPullRequest,
       { cs with issueIDs := cs.issueIDs ++ [result] })

/-- Left fold of `processIssueReference` over a list of submatch strings. -/
def processRefs (env : Env) (acc : RunState × CommitSummary) (rs : List String) :
    RunState × CommitSummary :=
  rs.foldl (fun acc2 r => processIssueReference env acc2.1 acc2.2 r) acc

/-- `fullCommitMessageText` (changelog.go:784-800) as a function of the
message: the helper appends the message of each "parent", but is invoked on
the commit itself only, so the message is appended to itself once, with a
newline separator unless one is already present (and not at all when the
message is empty). -/
def fullMessageText (message : String) : String :=
  let answer := message
  let text := message
  if text ≠ "" then
    answer ++ (if strEnds answer "\n" then "" else "\n") ++ text
  else
    answer

/-- `fullCommitMessageText` reads only the commit message. -/
def fullCommitMessageText (commit : RawCommit) : String :=
  fullMessageText commit.message

/-- `addIssuesAndPullRequests` (changelog.go:682-770): match the full
message text, then run the inner loop over every submatch of every match.
The source function always returns a nil error (its only `return` is
`return nil`), so no error outcome is modelled. -/
def addIssuesAndPullRequests (env : Env) (st : RunState) (cs : CommitSummary)
    (rawCommit : RawCommit) : RunState × CommitSummary :=
  let message := fullCommitMessageText rawCommit
  let found := env.findMatches message
  found.foldl
    (fun acc mtch => mtch.foldl
      (fun acc2 result => processIssueReference env acc2.1 acc2.2 result) acc)
    (st, cs)

/-- The commit summary built at changelog.go:647-672 before enrichment: URL
empty, branch "master", author and committer resolved when name and email
are both non-empty (a resolution error is logged and leaves the field
empty), no issue references yet. -/
def initCommitSummary (env : Env) (commit : RawCommit) : CommitSummary :=
  { message := commit.message
    url := ""
    sha := commit.hash
    author :=
      if commit.author.email ≠ "" ∧ commit.author.name ≠ "" then
        env.resolveSignature commit.author
      else none
    branch := "master"
    committer :=
      if commit.committer.email ≠ "" ∧ commit.committer.name ≠ "" then
        env.resolveSignature commit.committer
      else none
    issueIDs := [] }

/-- `addCommit` (changelog.go:645-680): build the commit summary, enrich it
with issues (an enrichment error is only logged), and append it to
`spec.Commits` unconditionally. -/
def addCommit (env : Env) (st : RunState) (commit : RawCommit) : RunState :=
  let res := addIssuesAndPullRequests env st (initCommitSummary env commit) commit
  { res.1 with commits := res.1.commits ++ [res.2] }

/-- The inclusion test of the commit loop (changelog.go:385):
`o.IncludeMergeCommits || len(commit.ParentHashes) <= 1`. -/
def includeCommitCond (includeMergeCommits : Bool) (commit : RawCommit) : Prop :=
  includeMergeCommits = true ∨ commit.parentCount ≤ 1

instance (inc : Bool) : DecidablePred (includeCommitCond inc) := fun c => by
  unfold includeCommitCond; exact inferInstance

/-- The commit loop of `Run` (changelog.go:382-389): a commit is added when
merge-commit inclusion is enabled or it has at most one parent. -/
def addCommits (env : Env) (includeMergeCommits : Bool) :
    RunState → List RawCommit → RunState
  | st, [] => st
  | st, commit :: rest =>
    if includeCommitCond includeMergeCommits commit then
      addCommits env includeMergeCommits (addCommit env st commit) rest
    else
      addCommits env includeMergeCommits st rest

/-- The number of commits the loop includes: the non-merge commits (at most
one parent), plus the merge commits when merge-commit inclusion is enabled. -/
def includedCommitCount (includeMergeCommits : Bool) (commits : List RawCommit) : Nat :=
  (commits.filter fun c => decide (includeCommitCond includeMergeCommits c)).length

/-- The release-commit trimming of `Run` (changelog.go:330-338): when the
first fetched commit message starts with `release `, that commit is removed
from the log. -/
def removeReleaseCommit : List RawCommit → List RawCommit
  | [] => []
  | c :: rest => if strStarts c.message "release " then rest else c :: rest

/-- The initial run state: empty `FoundIssueNames` (changelog.go:321) and
empty `Commits`/`Issues`/`PullRequests` (changelog.go:372-374). -/
def initialRunState : RunState :=
  { foundIssueNames := [], commits := [], issues := [], pullRequests := [], issueCalls := [] }

/-- The assembly pipeline of `Run` on the fetched commit list: trim a
leading release commit, then fold the commit loop from the initial state. -/
def runChangelogPipeline (env : Env) (includeMergeCommits : Bool)
    (commits : List RawCommit) : RunState :=
  addCommits env includeMergeCommits initialRunState (removeReleaseCommit commits)

/-- All issue identifiers attached to assembled commit summaries. -/
def attachedIssueIDs (st : RunState) : List String :=
  (st.commits.map CommitSummary.issueIDs).flatten

/-- The identifiers of all issue and pull-request summaries in the release
record. -/
def releaseIssueIDs (st : RunState) : List String :=
  (st.issues ++ st.pullRequests).map IssueSummary.id

/-! #### Structure of one `processIssueReference` step -/

/-- Case description of one inner-loop step: either the identifier was
already in the de-duplication set and nothing changes, or it is added to the
set and logged as a tracker call, and — only when the lookup succeeds — it
is attached to the commit and one summary with that id is appended to
exactly one of the two release lists. -/
theorem processIssueReference_cases (env : Env) (st : RunState) (cs : CommitSummary)
    (r : String) :
    (stripHashChar r ∈ st.foundIssueNames ∧ processIssueReference env st cs r = (st, cs)) ∨
    (stripHashChar r ∉ st.foundIssueNames ∧
      (processIssueReference env st cs r).1.foundIssueNames =
        stripHashChar r :: st.foundIssueNames ∧
      (processIssueReference env st cs r).1.issueCalls =
        st.issueCalls ++ [stripHashChar r] ∧
      (processIssueReference env st cs r).1.commits = st.commits ∧
      (((processIssueReference env st cs r).1.issues = st.issues ∧
        (processIssueReference env st cs r).1.pullRequests = st.pullRequests ∧
        (processIssueReference env st cs r).2 = cs) ∨
       (∃ s : IssueSummary, s.id = stripHashChar r ∧
         (processIssueReference env st cs r).2 =
           { cs with issueIDs := cs.issueIDs ++ [stripHashChar r] } ∧
         (((processIssueReference env st cs r).1.issues = st.issues ++ [s] ∧
           (processIssueReference env st cs r).1.pullRequests = st.pullRequests) ∨
          ((processIssueReference env st cs r).1.issues = st.issues ∧
           (processIssueReference env st cs r).1.pullRequests =
             st.pullRequests ++ [s]))))) := by
  by_cases h : stripHashChar r ∈ st.foundIssueNames
  · have hc : st.foundIssueNames.contains (stripHashChar r) = true :=
      List.elem_iff.mpr h
    left
    refine ⟨h, ?_⟩
    simp only [processIssueReference, hc, if_true]
  · have hc : st.foundIssueNames.contains (stripHashChar r) = false := by
      rcases Bool.eq_false_or_eq_true (st.foundIssueNames.contains (stripHashChar r))
        with hb | hb
      · exact absurd (List.elem_iff.mp hb) h
      · exact hb
    right
    refine ⟨h, ?_⟩
    simp only [processIssueReference, hc, Bool.false_eq_true, if_false]
    cases hg : env.getIssue (stripHashChar r) with
    | failure m => exact ⟨rfl, rfl, rfl, Or.inl ⟨rfl, rfl, rfl⟩⟩
    | missing => exact ⟨rfl, rfl, rfl, Or.inl ⟨rfl, rfl, rfl⟩⟩
    | found issue =>
      by_cases hp : issue.isPullRequest = true
      · refine ⟨?_, ?_, ?_, Or.inr ⟨foundIssueSummary env (stripHashChar r) issue, rfl,
          rfl, Or.inr ⟨?_, ?_⟩⟩⟩ <;>
          simp only [recordIssue, hp, if_true]
      · have hp' : issue.isPullRequest = false := by
          rcases Bool.eq_false_or_eq_true issue.isPullRequest with hb | hb
          · exact absurd hb hp
          · exact hb
        refine ⟨?_, ?_, ?_, Or.inr ⟨foundIssueSummary env (stripHashChar r) issue, rfl,
          rfl, Or.inl ⟨?_, ?_⟩⟩⟩ <;>
          simp only [recordIssue, hp', Bool.false_eq_true, if_false]

/-! #### Components that one step leaves untouched -/

theorem processIssueReference_commits (env : Env) (st : RunState) (cs : CommitSummary)
    (r : String) : (processIssueReference env st cs r).1.commits = st.commits := by
  rcases processIssueReference_cases env st cs r with ⟨_, h⟩ | ⟨_, _, _, h, _⟩
  · rw [h]
  · exact h

theorem processIssueReference_message (env : Env) (st : RunState) (cs : CommitSummary)
    (r : String) : (processIssueReference env st cs r).2.message = cs.message := by
  rcases processIssueReference_cases env st cs r with ⟨_, h⟩ | ⟨_, _, _, _, hd⟩
  · rw [h]
  · rcases hd with ⟨_, _, h2⟩ | ⟨s, _, h2, _⟩ <;> rw [h2]

theorem processIssueReference_sha (env : Env) (st : RunState) (cs : CommitSummary)
    (r : String) : (processIssueReference env st cs r).2.sha = cs.sha := by
  rcases processIssueReference_cases env st cs r with ⟨_, h⟩ | ⟨_, _, _, _, hd⟩
  · rw [h]
  · rcases hd with ⟨_, _, h2⟩ | ⟨s, _, h2, _⟩ <;> rw [h2]

theorem processIssueReference_found_mono (env : Env) (st : RunState) (cs : CommitSummary)
    (r : String) {x : String} (hx : x ∈ st.foundIssueNames) :
    x ∈ (processIssueReference env st cs r).1.foundIssueNames := by
  rcases processIssueReference_cases env st cs r with ⟨_, h⟩ | ⟨_, hf, _⟩
  · rw [h]; exact hx
  · rw [hf]; exact List.mem_cons_of_mem _ hx

/-! #### The reference fold -/

theorem processRefs_nil (env : Env) (acc : RunState × CommitSummary) :
    processRefs env acc [] = acc := rfl

theorem processRefs_cons (env : Env) (acc : RunState × CommitSummary) (r : String)
    (rs : List String) :
    processRefs env acc (r :: rs) =
      processRefs env (processIssueReference env acc.1 acc.2 r) rs := rfl

theorem processRefs_commits (env : Env) :
    ∀ (rs : List String) (acc : RunState × CommitSummary),
      (processRefs env acc rs).1.commits = acc.1.commits := by
  intro rs
  induction rs with
  | nil => intro acc; rfl
  | cons r rs ih =>
    intro acc
    rw [processRefs_cons, ih]
    exact processIssueReference_commits env acc.1 acc.2 r

theorem processRefs_message (env : Env) :
    ∀ (rs : List String) (acc : RunState × CommitSummary),
      (processRefs env acc rs).2.message = acc.2.message := by
  intro rs
  induction rs with
  | nil => intro acc; rfl
  | cons r rs ih =>
    intro acc
    rw [processRefs_cons, ih]
    exact processIssueReference_message env acc.1 acc.2 r

theorem processRefs_sha (env : Env) :
    ∀ (rs : List String) (acc : RunState × CommitSummary),
      (processRefs env acc rs).2.sha = acc.2.sha := by
  intro rs
  induction rs with
  | nil => intro acc; rfl
  | cons r rs ih =>
    intro acc
    rw [processRefs_cons, ih]
    exact processIssueReference_sha env acc.1 acc.2 r

theorem foldl_flatten_eq {α β : Type _} (f : β → α → β) :
    ∀ (ls : List (List α)) (b : β),
      (ls.flatten).foldl f b = ls.foldl (fun acc m => m.foldl f acc) b := by
  intro ls
  induction ls with
  | nil => intro b; rfl
  | cons l ls ih =>
    intro b
    rw [List.flatten_cons, List.foldl_append]
    exact ih _

/-- The nested submatch loops are the fold over the flattened match list. -/
theorem addIssuesAndPullRequests_eq (env : Env) (st : RunState) (cs : CommitSummary)
    (c : RawCommit) :
    addIssuesAndPullRequests env st cs c =
      processRefs env (st, cs) ((env.findMatches (fullCommitMessageText c)).flatten) := by
  unfold addIssuesAndPullRequests processRefs
  exact (foldl_flatten_eq _ _ _).symm

/-! #### The commit loop -/

theorem addCommit_commits (env : Env) (st : RunState) (c : RawCommit) :
    (addCommit env st c).commits =
      st.commits ++ [(addIssuesAndPullRequests env st (initCommitSummary env c) c).2] := by
  unfold addCommit
  simp only [addIssuesAndPullRequests_eq, processRefs_commits]

theorem addCommit_found_eq (env : Env) (st : RunState) (c : RawCommit) :
    (addCommit env st c).foundIssueNames =
      (processRefs env (st, initCommitSummary env c)
        ((env.findMatches (fullCommitMessageText c)).flatten)).1.foundIssueNames := by
  show (addIssuesAndPullRequests env st (initCommitSummary env c) c).1.foundIssueNames = _
  rw [addIssuesAndPullRequests_eq]

theorem addCommit_calls_eq (env : Env) (st : RunState) (c : RawCommit) :
    (addCommit env st c).issueCalls =
      (processRefs env (st, initCommitSummary env c)
        ((env.findMatches (fullCommitMessageText c)).flatten)).1.issueCalls := by
  show (addIssuesAndPullRequests env st (initCommitSummary env c) c).1.issueCalls = _
  rw [addIssuesAndPullRequests_eq]

theorem addCommit_last_sha (env : Env) (st : RunState) (c : RawCommit) :
    (addIssuesAndPullRequests env st (initCommitSummary env c) c).2.sha = c.hash := by
  rw [addIssuesAndPullRequests_eq, processRefs_sha]
  rfl

theorem addCommit_last_message (env : Env) (st : RunState) (c : RawCommit) :
    (addIssuesAndPullRequests env st (initCommitSummary env c) c).2.message = c.message := by
  rw [addIssuesAndPullRequests_eq, processRefs_message]
  rfl

theorem includedCommitCount_cons_pos {inc : Bool} {c : RawCommit}
    (hc : includeCommitCond inc c) (rest : List RawCommit) :
    includedCommitCount inc (c :: rest) = includedCommitCount inc rest + 1 := by
  simp [includedCommitCount, List.filter_cons, hc]

theorem includedCommitCount_cons_neg {inc : Bool} {c : RawCommit}
    (hc : ¬ includeCommitCond inc c) (rest : List RawCommit) :
    includedCommitCount inc (c :: rest) = includedCommitCount inc rest := by
  simp [includedCommitCount, List.filter_cons, hc]

theorem addCommits_commits_length (env : Env) (inc : Bool) :
    ∀ (l : List RawCommit) (st : RunState),
      (addCommits env inc st l).commits.length =
        st.commits.length + includedCommitCount inc l := by
  intro l
  induction l with
  | nil => intro st; simp [addCommits, includedCommitCount]
  | cons c rest ih =>
    intro st
    by_cases hc : includeCommitCond inc c
    · rw [addCommits, if_pos hc, ih, addCommit_commits, includedCommitCount_cons_pos hc]
      simp only [List.length_append, List.length_cons, List.length_nil]
      omega
    · rw [addCommits, if_neg hc, ih, includedCommitCount_cons_neg hc]

theorem addCommits_shas (env : Env) (inc : Bool) :
    ∀ (l : List RawCommit) (st : RunState),
      ∀ cs ∈ (addCommits env inc st l).commits,
        cs ∈ st.commits ∨ cs.sha ∈ l.map RawCommit.hash := by
  intro l
  induction l with
  | nil => intro st cs h; exact Or.inl h
  | cons c rest ih =>
    intro st cs h
    rw [addCommits] at h
    by_cases hc : includeCommitCond inc c
    · rw [if_pos hc] at h
      rcases ih _ cs h with h' | h'
      · rw [addCommit_commits] at h'
        rcases List.mem_append.mp h' with h'' | h''
        · exact Or.inl h''
        · rw [List.mem_singleton] at h''
          right
          rw [h'', addCommit_last_sha]
          exact List.mem_cons_self _ _
      · exact Or.inr (List.mem_cons_of_mem _ h')
    · rw [if_neg hc] at h
      rcases ih _ cs h with h' | h'
      · exact Or.inl h'
      · exact Or.inr (List.mem_cons_of_mem _ h')

/-! #### Claim theorems C3 and C10 -/

/-- A trivial environment: no matches, no issues, no resolutions. -/
def envTrivial : Env :=
  { getIssue := fun _ => .missing
    findMatches := fun _ => []
    resolveSignature := fun _ => none
    resolveUser := fun _ => none
    resolveUsers := fun _ => [] }

/-- A non-merge commit whose message starts with `release `. -/
def releaseCommitEx : RawCommit :=
  { hash := "aaa1", message := "release 1.0.0"
    author := ⟨"alice", "alice@example.com"⟩
    committer := ⟨"alice", "alice@example.com"⟩
    parentCount := 1 }

/-- An ordinary non-merge commit. -/
def plainCommitEx : RawCommit :=
  { hash := "bbb2", message := "fix: correct parsing"
    author := ⟨"bob", "bob@example.com"⟩
    committer := ⟨"bob", "bob@example.com"⟩
    parentCount := 1 }

/-- C3 is false as stated: for the commit list whose only element is a
non-merge commit with message `release 1.0.0`, the pipeline produces zero
commit summaries while the list contains one commit with at most one
parent. -/
theorem c3_counterexample :
    (runChangelogPipeline envTrivial false [releaseCommitEx]).commits.length ≠
      includedCommitCount false [releaseCommitEx] := by
  decide

/-- C3 (amended): the number of `CommitSummary` records equals the number of
non-merge `RawCommit`s plus the merge commits when merge-commit inclusion is
enabled, counted after the removal of a leading commit whose message starts
with `release `. -/
theorem c3_commit_count (env : Env) (inc : Bool) (commits : List RawCommit) :
    (runChangelogPipeline env inc commits).commits.length =
      includedCommitCount inc (removeReleaseCommit commits) := by
  unfold runChangelogPipeline
  rw [addCommits_commits_length]
  simp [initialRunState]

/-- C10: when the first fetched commit message starts with `release `, that
commit is removed before assembly: the pipeline state is the one assembled
from the remaining commits, and the summary count ignores the removed commit
even though it is a non-merge commit. -/
theorem c10_release_commit_removed (env : Env) (inc : Bool) (c : RawCommit)
    (rest : List RawCommit) (h : strStarts c.message "release " = true) :
    runChangelogPipeline env inc (c :: rest) = addCommits env inc initialRunState rest ∧
    (runChangelogPipeline env inc (c :: rest)).commits.length =
      includedCommitCount inc rest := by
  have h1 : removeReleaseCommit (c :: rest) = rest := by
    simp [removeReleaseCommit, h]
  constructor
  · unfold runChangelogPipeline
    rw [h1]
  · unfold runChangelogPipeline
    rw [h1, addCommits_commits_length]
    simp [initialRunState]

/-- Witness for `c10_release_commit_removed` at a concrete two-commit list. -/
theorem c10_release_commit_removed_witness :
    runChangelogPipeline envTrivial false [releaseCommitEx, plainCommitEx] =
      addCommits envTrivial false initialRunState [plainCommitEx] ∧
    (runChangelogPipeline envTrivial false [releaseCommitEx, plainCommitEx]).commits.length =
      includedCommitCount false [plainCommitEx] :=
  c10_release_commit_removed envTrivial false releaseCommitEx [plainCommitEx] (by decide)

/-! #### Claim C4: at most one tracker call per identifier -/

theorem processIssueReference_calls_inv (env : Env) (st : RunState) (cs : CommitSummary)
    (r : String) (h1 : st.issueCalls.Nodup)
    (h2 : ∀ x ∈ st.issueCalls, x ∈ st.foundIssueNames) :
    (processIssueReference env st cs r).1.issueCalls.Nodup ∧
    ∀ x ∈ (processIssueReference env st cs r).1.issueCalls,
      x ∈ (processIssueReference env st cs r).1.foundIssueNames := by
  rcases processIssueReference_cases env st cs r with ⟨_, h⟩ | ⟨hnot, hf, hcalls, _⟩
  · rw [h]; exact ⟨h1, h2⟩
  · rw [hf, hcalls]
    constructor
    · rw [List.nodup_append]
      refine ⟨h1, List.nodup_singleton _, ?_⟩
      intro a ha hb
      rw [List.mem_singleton] at hb
      rw [hb] at ha
      exact hnot (h2 _ ha)
    · intro x hx
      rcases List.mem_append.mp hx with hx | hx
      · exact List.mem_cons_of_mem _ (h2 x hx)
      · rw [List.mem_singleton] at hx
        rw [hx]
        exact List.mem_cons_self _ _

theorem processRefs_calls_inv (env : Env) :
    ∀ (rs : List String) (acc : RunState × CommitSummary),
      acc.1.issueCalls.Nodup → (∀ x ∈ acc.1.issueCalls, x ∈ acc.1.foundIssueNames) →
      (processRefs env acc rs).1.issueCalls.Nodup ∧
      ∀ x ∈ (processRefs env acc rs).1.issueCalls,
        x ∈ (processRefs env acc rs).1.foundIssueNames := by
  intro rs
  induction rs with
  | nil => intro acc h1 h2; exact ⟨h1, h2⟩
  | cons r rs ih =>
    intro acc h1 h2
    rw [processRefs_cons]
    obtain ⟨g1, g2⟩ := processIssueReference_calls_inv env acc.1 acc.2 r h1 h2
    exact ih _ g1 g2

theorem addCommit_calls_inv (env : Env) (st : RunState) (c : RawCommit)
    (h1 : st.issueCalls.Nodup) (h2 : ∀ x ∈ st.issueCalls, x ∈ st.foundIssueNames) :
    (addCommit env st c).issueCalls.Nodup ∧
    ∀ x ∈ (addCommit env st c).issueCalls, x ∈ (addCommit env st c).foundIssueNames := by
  have h := processRefs_calls_inv env
    ((env.findMatches (fullCommitMessageText c)).flatten) (st, initCommitSummary env c) h1 h2
  constructor
  · rw [addCommit_calls_eq]
    exact h.1
  · intro x hx
    rw [addCommit_calls_eq] at hx
    rw [addCommit_found_eq]
    exact h.2 x hx

theorem addCommits_calls_inv (env : Env) (inc : Bool) :
    ∀ (l : List RawCommit) (st : RunState),
      st.issueCalls.Nodup → (∀ x ∈ st.issueCalls, x ∈ st.foundIssueNames) →
      (addCommits env inc st l).issueCalls.Nodup ∧
      ∀ x ∈ (addCommits env inc st l).issueCalls,
        x ∈ (addCommits env inc st l).foundIssueNames := by
  intro l
  induction l with
  | nil => intro st h1 h2; exact ⟨h1, h2⟩
  | cons c rest ih =>
    intro st h1 h2
    rw [addCommits]
    by_cases hc : includeCommitCond inc c
    · rw [if_pos hc]
      obtain ⟨g1, g2⟩ := addCommit_calls_inv env st c h1 h2
      exact ih _ g1 g2
    · rw [if_neg hc]
      exact ih _ h1 h2

/-- C4: for every run and every issue identifier, the issue tracker GetIssue
is called at most once for that identifier, however many commit messages or
repeated matches reference it: the ghost call log has no duplicates. -/
theorem c4_issue_fetched_at_most_once (env : Env) (inc : Bool)
    (commits : List RawCommit) (id : String) :
    ((runChangelogPipeline env inc commits).issueCalls.count id) ≤ 1 := by
  have h := addCommits_calls_inv env inc (removeReleaseCommit commits) initialRunState
    (by simp [initialRunState]) (by simp [initialRunState])
  exact List.nodup_iff_count_le_one.mp h.1 id

/-! #### Claim C7: lookup failures are non-fatal -/

theorem processIssueReference_lockstep (env₁ env₂ : Env) (st₁ st₂ : RunState)
    (cs₁ cs₂ : CommitSummary) (r : String)
    (hf : st₁.foundIssueNames = st₂.foundIssueNames)
    (hc : st₁.issueCalls = st₂.issueCalls) :
    (processIssueReference env₁ st₁ cs₁ r).1.foundIssueNames =
      (processIssueReference env₂ st₂ cs₂ r).1.foundIssueNames ∧
    (processIssueReference env₁ st₁ cs₁ r).1.issueCalls =
      (processIssueReference env₂ st₂ cs₂ r).1.issueCalls := by
  rcases processIssueReference_cases env₁ st₁ cs₁ r with ⟨h₁, e₁⟩ | ⟨h₁, f₁, c₁, _⟩ <;>
    rcases processIssueReference_cases env₂ st₂ cs₂ r with ⟨h₂, e₂⟩ | ⟨h₂, f₂, c₂, _⟩
  · rw [e₁, e₂]; exact ⟨hf, hc⟩
  · exact absurd (hf ▸ h₁) h₂
  · exact absurd (hf.symm ▸ h₂) h₁
  · rw [f₁, f₂, c₁, c₂, hf, hc]; exact ⟨rfl, rfl⟩

theorem processRefs_lockstep (env₁ env₂ : Env) :
    ∀ (rs : List String) (acc₁ acc₂ : RunState × CommitSummary),
      acc₁.1.foundIssueNames = acc₂.1.foundIssueNames →
      acc₁.1.issueCalls = acc₂.1.issueCalls →
      (processRefs env₁ acc₁ rs).1.foundIssueNames =
        (processRefs env₂ acc₂ rs).1.foundIssueNames ∧
      (processRefs env₁ acc₁ rs).1.issueCalls =
        (processRefs env₂ acc₂ rs).1.issueCalls := by
  intro rs
  induction rs with
  | nil => intro acc₁ acc₂ hf hc; exact ⟨hf, hc⟩
  | cons r rs ih =>
    intro acc₁ acc₂ hf hc
    rw [processRefs_cons, processRefs_cons]
    obtain ⟨g1, g2⟩ :=
      processIssueReference_lockstep env₁ env₂ acc₁.1 acc₂.1 acc₁.2 acc₂.2 r hf hc
    exact ih _ _ g1 g2

theorem addCommit_map_sha (env : Env) (st : RunState) (c : RawCommit) :
    (addCommit env st c).commits.map CommitSummary.sha =
      st.commits.map CommitSummary.sha ++ [c.hash] := by
  rw [addCommit_commits, List.map_append]
  simp [addCommit_last_sha]

theorem addCommit_lockstep (env₁ env₂ : Env) (st₁ st₂ : RunState) (c : RawCommit)
    (hfm : env₁.findMatches = env₂.findMatches)
    (hf : st₁.foundIssueNames = st₂.foundIssueNames)
    (hc : st₁.issueCalls = st₂.issueCalls) :
    (addCommit env₁ st₁ c).foundIssueNames = (addCommit env₂ st₂ c).foundIssueNames ∧
    (addCommit env₁ st₁ c).issueCalls = (addCommit env₂ st₂ c).issueCalls := by
  rw [addCommit_found_eq, addCommit_found_eq, addCommit_calls_eq, addCommit_calls_eq, hfm]
  exact processRefs_lockstep env₁ env₂ _ _ _ hf hc

theorem addCommits_lockstep (env₁ env₂ : Env) (inc : Bool)
    (hfm : env₁.findMatches = env₂.findMatches) :
    ∀ (l : List RawCommit) (st₁ st₂ : RunState),
      st₁.foundIssueNames = st₂.foundIssueNames →
      st₁.issueCalls = st₂.issueCalls →
      st₁.commits.map CommitSummary.sha = st₂.commits.map CommitSummary.sha →
      (addCommits env₁ inc st₁ l).foundIssueNames =
        (addCommits env₂ inc st₂ l).foundIssueNames ∧
      (addCommits env₁ inc st₁ l).issueCalls = (addCommits env₂ inc st₂ l).issueCalls ∧
      (addCommits env₁ inc st₁ l).commits.map CommitSummary.sha =
        (addCommits env₂ inc st₂ l).commits.map CommitSummary.sha := by
  intro l
  induction l with
  | nil => intro st₁ st₂ hf hc hm; exact ⟨hf, hc, hm⟩
  | cons c rest ih =>
    intro st₁ st₂ hf hc hm
    rw [addCommits, addCommits]
    by_cases hcond : includeCommitCond inc c
    · rw [if_pos hcond, if_pos hcond]
      obtain ⟨g1, g2⟩ := addCommit_lockstep env₁ env₂ st₁ st₂ c hfm hf hc
      refine ih _ _ g1 g2 ?_
      rw [addCommit_map_sha, addCommit_map_sha, hm]
    · rw [if_neg hcond, if_neg hcond]
      exact ih _ _ hf hc hm

/-- C7: a failed issue lookup is non-fatal.  The pipeline is a total
function (`addIssuesAndPullRequests` always returns a nil error in the
source), and changing the tracker oracle in any way — including making every
lookup fail — never changes which commits are assembled, which identifiers
are examined, or which tracker calls are made: assembly of the remaining
issue references and commits always continues. -/
theorem c7_lookup_failures_nonfatal (env₁ env₂ : Env) (inc : Bool)
    (commits : List RawCommit) (hfm : env₁.findMatches = env₂.findMatches) :
    (runChangelogPipeline env₁ inc commits).commits.map CommitSummary.sha =
      (runChangelogPipeline env₂ inc commits).commits.map CommitSummary.sha ∧
    (runChangelogPipeline env₁ inc commits).foundIssueNames =
      (runChangelogPipeline env₂ inc commits).foundIssueNames ∧
    (runChangelogPipeline env₁ inc commits).issueCalls =
      (runChangelogPipeline env₂ inc commits).issueCalls := by
  obtain ⟨g1, g2, g3⟩ := addCommits_lockstep env₁ env₂ inc hfm
    (removeReleaseCommit commits) initialRunState initialRunState rfl rfl rfl
  exact ⟨g3, g1, g2⟩

/-! #### Concrete example environments -/

/-- The issue the tracker returns for identifier 42 in the examples. -/
def issue42Ex : TrackerIssue :=
  { link := "https://example.com/owner/repo/issues/42"
    title := "crash on empty input"
    body := "steps to reproduce"
    state := "closed"
    author := { login := "carol", name := "carol", email := "carol@example.com" }
    closedBy := none
    assignees := none
    labels := ["bug"]
    createdAt := 0
    isPullRequest := false }

/-- The submatch lists that the GitHub pattern yields via
`FindAllStringSubmatch` on the doubled full message text of a commit whose
message is `fixes #42`: two matches, each listing the whole match and the
single capture group, all four equal to `#42`. -/
def findMatches42 (s : String) : List (List String) :=
  if s = "fixes #42\nfixes #42" then [["#42", "#42"], ["#42", "#42"]] else []

/-- A tracker that knows issue 42. -/
def envIssueFound : Env :=
  { getIssue := fun id => if id = "42" then .found issue42Ex else .missing
    findMatches := findMatches42
    resolveSignature := fun _ => none
    resolveUser := fun _ => none
    resolveUsers := fun _ => [] }

/-- A tracker for which every lookup fails. -/
def envIssueFail : Env :=
  { getIssue := fun _ => .failure "connection refused"
    findMatches := findMatches42
    resolveSignature := fun _ => none
    resolveUser := fun _ => none
    resolveUsers := fun _ => [] }

/-- First commit whose message references issue 42. -/
def fixesCommitA : RawCommit :=
  { hash := "c001", message := "fixes #42"
    author := ⟨"alice", "alice@example.com"⟩
    committer := ⟨"alice", "alice@example.com"⟩
    parentCount := 1 }

/-- Second commit whose message references issue 42. -/
def fixesCommitB : RawCommit :=
  { hash := "c002", message := "fixes #42"
    author := ⟨"bob", "bob@example.com"⟩
    committer := ⟨"bob", "bob@example.com"⟩
    parentCount := 1 }

/-- Witness for `c7_lookup_failures_nonfatal`: an all-failing tracker and a
succeeding one, over the same two commits referencing issue 42. -/
theorem c7_lookup_failures_nonfatal_witness :
    (runChangelogPipeline envIssueFail false [fixesCommitA, fixesCommitB]).commits.map
        CommitSummary.sha =
      (runChangelogPipeline envIssueFound false [fixesCommitA, fixesCommitB]).commits.map
        CommitSummary.sha ∧
    (runChangelogPipeline envIssueFail false [fixesCommitA, fixesCommitB]).foundIssueNames =
      (runChangelogPipeline envIssueFound false [fixesCommitA, fixesCommitB]).foundIssueNames ∧
    (runChangelogPipeline envIssueFail false [fixesCommitA, fixesCommitB]).issueCalls =
      (runChangelogPipeline envIssueFound false [fixesCommitA, fixesCommitB]).issueCalls :=
  c7_lookup_failures_nonfatal envIssueFail envIssueFound false [fixesCommitA, fixesCommitB] rfl

/-! #### Claim C1: attachment of issue summaries to commit summaries -/

/-- C1 is false as stated: both commit messages contain `fixes #42` and only
one IssueSummary with id 42 appears, but only the first commit summary lists
`42` in its issue references — the second lists nothing, because the
attachment happens inside the de-duplication branch. -/
theorem c1_counterexample :
    fixesCommitB.message = "fixes #42" ∧
    (runChangelogPipeline envIssueFound false [fixesCommitA, fixesCommitB]).issues.map
        IssueSummary.id = ["42"] ∧
    (runChangelogPipeline envIssueFound false [fixesCommitA, fixesCommitB]).pullRequests = [] ∧
    (runChangelogPipeline envIssueFound false [fixesCommitA, fixesCommitB]).commits.map
        CommitSummary.issueIDs = [["42"], []] := by
  refine ⟨rfl, ?_, ?_, ?_⟩ <;> decide

theorem processIssueReference_ids_inv (env : Env) (st : RunState) (cs : CommitSummary)
    (r : String)
    (h1 : (attachedIssueIDs st ++ cs.issueIDs).Nodup)
    (h2 : ∀ x ∈ attachedIssueIDs st ++ cs.issueIDs, x ∈ st.foundIssueNames)
    (h3 : (releaseIssueIDs st).Nodup)
    (h4 : ∀ x ∈ releaseIssueIDs st, x ∈ st.foundIssueNames)
    (h5 : ∀ x ∈ cs.issueIDs, x ∈ releaseIssueIDs st)
    (h6 : ∀ c ∈ st.commits, ∀ x ∈ c.issueIDs, x ∈ releaseIssueIDs st) :
    (attachedIssueIDs (processIssueReference env st cs r).1 ++
        (processIssueReference env st cs r).2.issueIDs).Nodup ∧
    (∀ x ∈ attachedIssueIDs (processIssueReference env st cs r).1 ++
        (processIssueReference env st cs r).2.issueIDs,
      x ∈ (processIssueReference env st cs r).1.foundIssueNames) ∧
    (releaseIssueIDs (processIssueReference env st cs r).1).Nodup ∧
    (∀ x ∈ releaseIssueIDs (processIssueReference env st cs r).1,
      x ∈ (processIssueReference env st cs r).1.foundIssueNames) ∧
    (∀ x ∈ (processIssueReference env st cs r).2.issueIDs,
      x ∈ releaseIssueIDs (processIssueReference env st cs r).1) ∧
    (∀ c ∈ (processIssueReference env st cs r).1.commits, ∀ x ∈ c.issueIDs,
      x ∈ releaseIssueIDs (processIssueReference env st cs r).1) := by
  rcases processIssueReference_cases env st cs r with ⟨_, he⟩ | ⟨hnot, hf, _, hcm, hd⟩
  · rw [he]; exact ⟨h1, h2, h3, h4, h5, h6⟩
  · have hatt : attachedIssueIDs (processIssueReference env st cs r).1 =
        attachedIssueIDs st := by
      unfold attachedIssueIDs
      rw [hcm]
    rcases hd with ⟨hi, hp, hcs⟩ | ⟨s, hsid, hcs, hip⟩
    · have hrel : releaseIssueIDs (processIssueReference env st cs r).1 =
          releaseIssueIDs st := by
        unfold releaseIssueIDs
        rw [hi, hp]
      rw [hatt, hcs, hrel, hf, hcm]
      refine ⟨h1, ?_, h3, ?_, h5, h6⟩
      · intro x hx; exact List.mem_cons_of_mem _ (h2 x hx)
      · intro x hx; exact List.mem_cons_of_mem _ (h4 x hx)
    · have hnotatt : stripHashChar r ∉ attachedIssueIDs st ++ cs.issueIDs :=
        fun hx => hnot (h2 _ hx)
      have hnotrel : stripHashChar r ∉ releaseIssueIDs st :=
        fun hx => hnot (h4 _ hx)
      have hrelperm : List.Perm (releaseIssueIDs (processIssueReference env st cs r).1)
          (releaseIssueIDs st ++ [stripHashChar r]) := by
        rcases hip with ⟨hi, hp⟩ | ⟨hi, hp⟩
        · unfold releaseIssueIDs
          rw [hi, hp]
          have hpm : List.Perm ((st.issues ++ [s]) ++ st.pullRequests)
              ((st.issues ++ st.pullRequests) ++ [s]) := by
            rw [List.append_assoc, List.append_assoc]
            exact List.Perm.append_left _ List.perm_append_comm
          have h' := hpm.map IssueSummary.id
          simp only [List.map_append, List.map_singleton, hsid] at h' ⊢
          exact h'
        · unfold releaseIssueIDs
          rw [hi, hp, ← List.append_assoc, List.map_append, List.map_singleton, hsid]
      have hnodup' : (releaseIssueIDs st ++ [stripHashChar r]).Nodup := by
        rw [List.nodup_append]
        refine ⟨h3, List.nodup_singleton _, ?_⟩
        intro a ha hb
        rw [List.mem_singleton] at hb
        rw [hb] at ha
        exact hnotrel ha
      refine ⟨?_, ?_, ?_, ?_, ?_, ?_⟩
      · rw [hatt, hcs]
        show (attachedIssueIDs st ++ (cs.issueIDs ++ [stripHashChar r])).Nodup
        rw [← List.append_assoc, List.nodup_append]
        refine ⟨h1, List.nodup_singleton _, ?_⟩
        intro a ha hb
        rw [List.mem_singleton] at hb
        rw [hb] at ha
        exact hnotatt ha
      · intro x hx
        rw [hatt, hcs] at hx
        rw [hf]
        rw [show (attachedIssueIDs st ++ (cs.issueIDs ++ [stripHashChar r])) =
          (attachedIssueIDs st ++ cs.issueIDs) ++ [stripHashChar r] from
          (List.append_assoc _ _ _).symm] at hx
        rcases List.mem_append.mp hx with hx | hx
        · exact List.mem_cons_of_mem _ (h2 x hx)
        · rw [List.mem_singleton] at hx
          rw [hx]
          exact List.mem_cons_self _ _
      · exact hrelperm.nodup_iff.mpr hnodup'
      · intro x hx
        rw [hf]
        rcases List.mem_append.mp (hrelperm.mem_iff.mp hx) with hx' | hx'
        · exact List.mem_cons_of_mem _ (h4 x hx')
        · rw [List.mem_singleton] at hx'
          rw [hx']
          exact List.mem_cons_self _ _
      · intro x hx
        rw [hcs] at hx
        rw [hrelperm.mem_iff]
        rcases List.mem_append.mp hx with hx' | hx'
        · exact List.mem_append_left _ (h5 x hx')
        · exact List.mem_append_right _ hx'
      · intro c hc x hx
        rw [hcm] at hc
        rw [hrelperm.mem_iff]
        exact List.mem_append_left _ (h6 c hc x hx)

theorem processRefs_ids_inv (env : Env) :
    ∀ (rs : List String) (acc : RunState × CommitSummary),
      (attachedIssueIDs acc.1 ++ acc.2.issueIDs).Nodup →
      (∀ x ∈ attachedIssueIDs acc.1 ++ acc.2.issueIDs, x ∈ acc.1.foundIssueNames) →
      (releaseIssueIDs acc.1).Nodup →
      (∀ x ∈ releaseIssueIDs acc.1, x ∈ acc.1.foundIssueNames) →
      (∀ x ∈ acc.2.issueIDs, x ∈ releaseIssueIDs acc.1) →
      (∀ c ∈ acc.1.commits, ∀ x ∈ c.issueIDs, x ∈ releaseIssueIDs acc.1) →
      (attachedIssueIDs (processRefs env acc rs).1 ++
          (processRefs env acc rs).2.issueIDs).Nodup ∧
      (∀ x ∈ attachedIssueIDs (processRefs env acc rs).1 ++
          (processRefs env acc rs).2.issueIDs,
        x ∈ (processRefs env acc rs).1.foundIssueNames) ∧
      (releaseIssueIDs (processRefs env acc rs).1).Nodup ∧
      (∀ x ∈ releaseIssueIDs (processRefs env acc rs).1,
        x ∈ (processRefs env acc rs).1.foundIssueNames) ∧
      (∀ x ∈ (processRefs env acc rs).2.issueIDs,
        x ∈ releaseIssueIDs (processRefs env acc rs).1) ∧
      (∀ c ∈ (processRefs env acc rs).1.commits, ∀ x ∈ c.issueIDs,
        x ∈ releaseIssueIDs (processRefs env acc rs).1) := by
  intro rs
  induction rs with
  | nil => intro acc h1 h2 h3 h4 h5 h6; exact ⟨h1, h2, h3, h4, h5, h6⟩
  | cons r rs ih =>
    intro acc h1 h2 h3 h4 h5 h6
    rw [processRefs_cons]
    obtain ⟨g1, g2, g3, g4, g5, g6⟩ :=
      processIssueReference_ids_inv env acc.1 acc.2 r h1 h2 h3 h4 h5 h6
    exact ih _ g1 g2 g3 g4 g5 g6

/-- The state invariant carried across commits: attached identifiers and
release-record identifiers are duplicate-free, all of them are in the
de-duplication set, and every attached identifier has its summary in the
release record. -/
def StateIdsInv (st : RunState) : Prop :=
  (attachedIssueIDs st).Nodup ∧
  (∀ x ∈ attachedIssueIDs st, x ∈ st.foundIssueNames) ∧
  (releaseIssueIDs st).Nodup ∧
  (∀ x ∈ releaseIssueIDs st, x ∈ st.foundIssueNames) ∧
  (∀ c ∈ st.commits, ∀ x ∈ c.issueIDs, x ∈ releaseIssueIDs st)

theorem commits_addCommit (env : Env) (st : RunState) (c : RawCommit) :
    (addCommit env st c).commits =
      (addIssuesAndPullRequests env st (initCommitSummary env c) c).1.commits ++
        [(addIssuesAndPullRequests env st (initCommitSummary env c) c).2] := rfl

theorem found_addCommit (env : Env) (st : RunState) (c : RawCommit) :
    (addCommit env st c).foundIssueNames =
      (addIssuesAndPullRequests env st (initCommitSummary env c) c).1.foundIssueNames := rfl

theorem releaseIssueIDs_addCommit (env : Env) (st : RunState) (c : RawCommit) :
    releaseIssueIDs (addCommit env st c) =
      releaseIssueIDs (addIssuesAndPullRequests env st (initCommitSummary env c) c).1 := rfl

theorem attachedIssueIDs_addCommit (env : Env) (st : RunState) (c : RawCommit) :
    attachedIssueIDs (addCommit env st c) =
      attachedIssueIDs (addIssuesAndPullRequests env st (initCommitSummary env c) c).1 ++
        (addIssuesAndPullRequests env st (initCommitSummary env c) c).2.issueIDs := by
  unfold attachedIssueIDs
  rw [commits_addCommit]
  simp

theorem addCommit_ids_inv (env : Env) (st : RunState) (c : RawCommit)
    (h : StateIdsInv st) : StateIdsInv (addCommit env st c) := by
  obtain ⟨h1, h2, h3, h4, h6⟩ := h
  obtain ⟨g1, g2, g3, g4, g5, g6⟩ := processRefs_ids_inv env
    ((env.findMatches (fullCommitMessageText c)).flatten) (st, initCommitSummary env c)
    (by simpa [initCommitSummary] using h1)
    (by simpa [initCommitSummary] using h2)
    h3 h4
    (by intro x hx; exact absurd hx (List.not_mem_nil x))
    h6
  rw [← addIssuesAndPullRequests_eq env st (initCommitSummary env c) c]
    at g1 g2 g3 g4 g5 g6
  refine ⟨?_, ?_, ?_, ?_, ?_⟩
  · rw [attachedIssueIDs_addCommit]
    exact g1
  · rw [attachedIssueIDs_addCommit, found_addCommit]
    exact g2
  · rw [releaseIssueIDs_addCommit]
    exact g3
  · rw [releaseIssueIDs_addCommit, found_addCommit]
    exact g4
  · intro c' hc' x hx
    rw [commits_addCommit] at hc'
    rw [releaseIssueIDs_addCommit]
    rcases List.mem_append.mp hc' with hq | hq
    · exact g6 c' hq x hx
    · rw [List.mem_singleton] at hq
      rw [hq] at hx
      exact g5 x hx

theorem addCommits_ids_inv (env : Env) (inc : Bool) :
    ∀ (l : List RawCommit) (st : RunState),
      StateIdsInv st → StateIdsInv (addCommits env inc st l) := by
  intro l
  induction l with
  | nil => intro st h; exact h
  | cons c rest ih =>
    intro st h
    rw [addCommits]
    by_cases hc : includeCommitCond inc c
    · rw [if_pos hc]
      exact ih _ (addCommit_ids_inv env st c h)
    · rw [if_neg hc]
      exact ih _ h

theorem initial_ids_inv : StateIdsInv initialRunState := by
  refine ⟨?_, ?_, ?_, ?_, ?_⟩ <;>
    simp [initialRunState, attachedIssueIDs, releaseIssueIDs]

/-- Every identifier a commit summary ends up with comes from the processed
submatch strings, with the leading `#` trimmed. -/
theorem processRefs_issueIDs_subset (env : Env) :
    ∀ (rs : List String) (acc : RunState × CommitSummary),
      ∀ id ∈ (processRefs env acc rs).2.issueIDs,
        id ∈ acc.2.issueIDs ∨ id ∈ rs.map stripHashChar := by
  intro rs
  induction rs with
  | nil => intro acc id hid; exact Or.inl hid
  | cons r rs ih =>
    intro acc id hid
    rw [processRefs_cons] at hid
    rcases ih _ id hid with hq | hq
    · rcases processIssueReference_cases env acc.1 acc.2 r with ⟨_, he⟩ | ⟨_, _, _, _, hd⟩
      · rw [he] at hq
        exact Or.inl hq
      · rcases hd with ⟨_, _, hcs⟩ | ⟨s, _, hcs, _⟩
        · rw [hcs] at hq
          exact Or.inl hq
        · rw [hcs] at hq
          rcases List.mem_append.mp hq with hq' | hq'
          · exact Or.inl hq'
          · rw [List.mem_singleton] at hq'
            rw [hq']
            exact Or.inr (List.mem_cons_self _ _)
    · exact Or.inr (List.mem_cons_of_mem _ hq)

/-- The per-commit provenance invariant: every identifier listed by a stored
commit summary appears among the trimmed submatches of the full message text
of that summary. -/
def MsgInv (env : Env) (st : RunState) : Prop :=
  ∀ cs ∈ st.commits, ∀ id ∈ cs.issueIDs,
    id ∈ ((env.findMatches (fullMessageText cs.message)).flatten).map stripHashChar

theorem addCommit_msg_inv (env : Env) (st : RunState) (c : RawCommit)
    (h : MsgInv env st) : MsgInv env (addCommit env st c) := by
  intro cs hcs id hid
  rw [commits_addCommit] at hcs
  rcases List.mem_append.mp hcs with hq | hq
  · have hcm : (addIssuesAndPullRequests env st (initCommitSummary env c) c).1.commits =
        st.commits := by
      rw [addIssuesAndPullRequests_eq]
      exact processRefs_commits env _ _
    rw [hcm] at hq
    exact h cs hq id hid
  · rw [List.mem_singleton] at hq
    have hmsg : cs.message = c.message := by
      rw [hq]
      exact addCommit_last_message env st c
    have hids : id ∈ ((env.findMatches (fullCommitMessageText c)).flatten).map
        stripHashChar := by
      have hsub := processRefs_issueIDs_subset env
        ((env.findMatches (fullCommitMessageText c)).flatten)
        (st, initCommitSummary env c) id
      rw [← addIssuesAndPullRequests_eq] at hsub
      rcases hsub (hq ▸ hid) with hz | hz
      · exact absurd hz (List.not_mem_nil id)
      · exact hz
    rw [hmsg]
    exact hids

theorem addCommits_msg_inv (env : Env) (inc : Bool) :
    ∀ (l : List RawCommit) (st : RunState),
      MsgInv env st → MsgInv env (addCommits env inc st l) := by
  intro l
  induction l with
  | nil => intro st h; exact h
  | cons c rest ih =>
    intro st h
    rw [addCommits]
    by_cases hc : includeCommitCond inc c
    · rw [if_pos hc]
      exact ih _ (addCommit_msg_inv env st c h)
    · rw [if_neg hc]
      exact ih _ h

/-- C1 (amended): in every run, the release record contains at most one
IssueSummary per identifier; each identifier is attached to at most one
CommitSummary overall (the first commit whose processing found it, not every
referencing commit); every attached identifier has its IssueSummary in the
release record; and a CommitSummary only lists identifiers extracted (and
`#`-trimmed) from the full message text of its own message. -/
theorem c1_issue_attachment (env : Env) (inc : Bool) (commits : List RawCommit) :
    (releaseIssueIDs (runChangelogPipeline env inc commits)).Nodup ∧
    (attachedIssueIDs (runChangelogPipeline env inc commits)).Nodup ∧
    (∀ id ∈ attachedIssueIDs (runChangelogPipeline env inc commits),
      id ∈ releaseIssueIDs (runChangelogPipeline env inc commits)) ∧
    ∀ cs ∈ (runChangelogPipeline env inc commits).commits, ∀ id ∈ cs.issueIDs,
      id ∈ ((env.findMatches (fullMessageText cs.message)).flatten).map stripHashChar := by
  have hS : StateIdsInv (runChangelogPipeline env inc commits) :=
    addCommits_ids_inv env inc (removeReleaseCommit commits) initialRunState initial_ids_inv
  have hM : MsgInv env (runChangelogPipeline env inc commits) :=
    addCommits_msg_inv env inc (removeReleaseCommit commits) initialRunState
      (by intro cs hcs; exact absurd hcs (List.not_mem_nil cs))
  obtain ⟨s1, s2, s3, s4, s5⟩ := hS
  refine ⟨s3, s1, ?_, hM⟩
  intro id hid
  unfold attachedIssueIDs at hid
  obtain ⟨l, hl, hidl⟩ := List.mem_flatten.mp hid
  obtain ⟨cs, hcs, rfl⟩ := List.mem_map.mp hl
  exact s5 cs hcs id hidl

/-- Witness for `c1_issue_attachment`: at the concrete two-commit run, the
attached identifier 42 indeed has its summary in the release record. -/
theorem c1_issue_attachment_witness :
    "42" ∈ releaseIssueIDs (runChangelogPipeline envIssueFound false
      [fixesCommitA, fixesCommitB]) :=
  (c1_issue_attachment envIssueFound false [fixesCommitA, fixesCommitB]).2.2.1 "42"
    (by decide)

/-! ### Markdown rendering (changelog.go:394-406, 802-825)

The Go `text/template` engine is an external collaborator: it is modelled as
an oracle `render` standing for `template.New(name).Parse(text)` followed by
`tmpl.Execute(writer, releaseSpec)`; a parse error or an execution error is
an `Except.error` (the caller aborts on a non-nil error and discards the
partially written buffer).  Reading a template file is the oracle
`readFile`. -/

/-- The fields of `v1.ReleaseSpec` relevant to template evaluation. -/
structure ReleaseSpecData where
  name : String
  version : String
  gitOwner : String
  gitRepository : String
deriving DecidableEq, Repr

/-- `getTemplateResult` (changelog.go:802-825): empty text with empty file
name yields the empty string; otherwise the text is taken inline or read
from the file; empty text again yields the empty string; otherwise the
template is parsed and executed. -/
def getTemplateResult (render : String → ReleaseSpecData → Except String String)
    (readFile : String → Except String String) (releaseSpec : ReleaseSpecData)
    (templateText templateFile : String) : Except String String :=
  if templateText = "" ∧ templateFile = "" then Except.ok ""
  else
    match (if templateText = "" then readFile templateFile else Except.ok templateText) with
    | Except.error e => Except.error e
    | Except.ok text =>
      if text = "" then Except.ok "" else render text releaseSpec

/-- The rendering phase of `Run` (changelog.go:394-406): generate the body,
render header and footer — each error aborts the run before any output is
produced — and return `header + markdown + footer`. -/
def renderChangelogMarkdown (render : String → ReleaseSpecData → Except String String)
    (readFile : String → Except String String) (releaseSpec : ReleaseSpecData)
    (body : Except String String)
    (header headerFile footer footerFile : String) : Except String String :=
  match body with
  | Except.error e => Except.error e
  | Except.ok markdown =>
    match getTemplateResult render readFile releaseSpec header headerFile with
    | Except.error e => Except.error e
    | Except.ok h =>
      match getTemplateResult render readFile releaseSpec footer footerFile with
      | Except.error e => Except.error e
      | Except.ok f => Except.ok (h ++ markdown ++ f)

/-- C8: the final markdown is the string concatenation header + body +
footer, and an unconfigured header or footer renders as the empty string in
its position, never as an error. -/
theorem c8_render_concatenation (render : String → ReleaseSpecData → Except String String)
    (readFile : String → Except String String) (releaseSpec : ReleaseSpecData)
    (body : String) (header headerFile footer footerFile h f : String)
    (hh : getTemplateResult render readFile releaseSpec header headerFile = Except.ok h)
    (hf : getTemplateResult render readFile releaseSpec footer footerFile = Except.ok f) :
    renderChangelogMarkdown render readFile releaseSpec (Except.ok body)
        header headerFile footer footerFile = Except.ok (h ++ body ++ f) ∧
    getTemplateResult render readFile releaseSpec "" "" = Except.ok "" := by
  constructor
  · unfold renderChangelogMarkdown
    rw [hh, hf]
  · rfl

/-- C9: a template parse or execution error on the header (or the footer) is
fatal: the rendering phase of the run returns that error, and no markdown is
produced. -/
theorem c9_template_error_fatal (render : String → ReleaseSpecData → Except String String)
    (readFile : String → Except String String) (releaseSpec : ReleaseSpecData)
    (body : String) (header headerFile footer footerFile h e : String) :
    (getTemplateResult render readFile releaseSpec header headerFile = Except.error e →
      renderChangelogMarkdown render readFile releaseSpec (Except.ok body)
        header headerFile footer footerFile = Except.error e) ∧
    (getTemplateResult render readFile releaseSpec header headerFile = Except.ok h →
      getTemplateResult render readFile releaseSpec footer footerFile = Except.error e →
      renderChangelogMarkdown render readFile releaseSpec (Except.ok body)
        header headerFile footer footerFile = Except.error e) := by
  constructor
  · intro hh
    unfold renderChangelogMarkdown
    rw [hh]
  · intro hh hf
    unfold renderChangelogMarkdown
    rw [hh, hf]

/-- The template engine of the examples: it renders the concrete header
template of the spec example and echoes any other text. -/
def renderVersionEx : String → ReleaseSpecData → Except String String :=
  fun t releaseSpec =>
    if t = "H:\x7b\x7b.Version\x7d\x7d\n" then
      Except.ok ("H:" ++ releaseSpec.version ++ "\n")
    else
      Except.ok t

/-- A template engine that fails on every non-empty template. -/
def renderFailEx : String → ReleaseSpecData → Except String String :=
  fun _ _ => Except.error "template: parse error"

/-- A file oracle with no files. -/
def readFileEx : String → Except String String :=
  fun _ => Except.error "no such file"

/-- The release data of the examples, version 2.0.1. -/
def releaseSpecEx : ReleaseSpecData :=
  { name := "kubeconawesome", version := "2.0.1"
    gitOwner := "jstrachan", gitRepository := "kubeconawesome" }

/-- Witness for `c8_render_concatenation`: header template `H:{{.Version}}`
with a newline, footer unconfigured, body `B` with a newline, version 2.0.1:
the output is `H:2.0.1`, newline, `B`, newline. -/
theorem c8_render_concatenation_witness :
    renderChangelogMarkdown renderVersionEx readFileEx releaseSpecEx (Except.ok "B\n")
        "H:\x7b\x7b.Version\x7d\x7d\n" "" "" "" = Except.ok "H:2.0.1\nB\n" ∧
    getTemplateResult renderVersionEx readFileEx releaseSpecEx "" "" = Except.ok "" := by
  have h := c8_render_concatenation renderVersionEx readFileEx releaseSpecEx "B\n"
    "H:\x7b\x7b.Version\x7d\x7d\n" "" "" "" "H:2.0.1\n" "" rfl rfl
  exact ⟨h.1.trans rfl, h.2⟩

/-- Witness for `c9_template_error_fatal`: a failing engine on a configured
header aborts the rendering phase with its error. -/
theorem c9_template_error_fatal_witness :
    renderChangelogMarkdown renderFailEx readFileEx releaseSpecEx (Except.ok "B\n")
        "broken" "" "" "" = Except.error "template: parse error" :=
  (c9_template_error_fatal renderFailEx readFileEx releaseSpecEx "B\n"
    "broken" "" "" "" "" "template: parse error").1 rfl

end JxChangelog
